import Mathlib

/-!
Verification of the `ini` package (a minimal line-oriented configuration
markup reader and writer, `ini.go`).

The embedding models the byte stream as `List Char`.  `Read` is embedded as
a step function over the list of scanner lines (`splitLines`, which mirrors
`bufio.Scanner` with its default `ScanLines` split function), with the
consumer callback modelled as a state-passing function `σ → Entry → σ ×
Option ε` (`none` = callback success).  `Write` is embedded over an
abstract sink `ω → List Char → ω × Option ε`, with the `errWriter`
suppression wrapper modelled explicitly; the producer callback is modelled
by the list of entries it emits, in order.
-/

namespace Ini

/-- ASCII fragment of the whitespace class used by Go's `bytes.TrimSpace`
(`asciiSpace`: tab, newline, vertical tab, form feed, carriage return,
space). -/
def isSpace (c : Char) : Bool :=
  c == ' ' || c == '\t' || c == '\n' || c == Char.ofNat 11 || c == Char.ofNat 12 || c == '\r'

/-- Drop leading whitespace (left half of `bytes.TrimSpace`). -/
def trimLeft (l : List Char) : List Char := l.dropWhile isSpace

/-- Drop trailing whitespace (right half of `bytes.TrimSpace`). -/
def trimRight (l : List Char) : List Char := (l.reverse.dropWhile isSpace).reverse

/-- `bytes.TrimSpace`. -/
def trimSpace (l : List Char) : List Char := trimRight (trimLeft l)

/-- `dropCR` from `bufio.ScanLines`: drop one terminal carriage return. -/
def dropCR (l : List Char) : List Char :=
  if l.getLast? = some '\r' then l.dropLast else l

/-- Accumulating worker for `splitLines`; `acc` holds the current raw line
reversed. At end of input a nonempty remainder is returned as a final line
(`bufio.Scanner` returns the leftover data at EOF), an empty one is not. -/
def splitLinesAux : List Char → List Char → List (List Char)
  | acc, [] => if acc = [] then [] else [dropCR acc.reverse]
  | acc, c :: rest =>
    if c = '\n' then dropCR acc.reverse :: splitLinesAux [] rest
    else splitLinesAux (c :: acc) rest

/-- The sequence of raw lines produced by `bufio.Scanner` with `ScanLines`:
split at each `'\n'`, dropping one `'\r'` immediately before it, and a
final unterminated line is returned as-is (after `dropCR`). -/
def splitLines (s : List Char) : List (List Char) := splitLinesAux [] s

/-- The `Entry` struct of `ini.go`: section, key and value strings. -/
structure Entry where
  Section : List Char
  Key : List Char
  Value : List Char
deriving DecidableEq

/-- `bytes.IndexByte(linebuf, '=')`, packaged as the split it is used for:
`some (before, after)` at the first `'='`, `none` when no `'='` occurs. -/
def splitFirstEq : List Char → Option (List Char × List Char)
  | [] => none
  | c :: rest =>
    if c = '=' then some ([], rest)
    else (splitFirstEq rest).map (fun p => (c :: p.1, p.2))

/-- Outcome of `Read`: success (`scanner.Err() == nil`), a propagated
callback error, or the "invalid line" error carrying the raw line. -/
inductive ReadResult (ε : Type) where
  | success : ReadResult ε
  | cbError : ε → ReadResult ε
  | malformed : List Char → ReadResult ε
deriving DecidableEq

/-- State of the `Read` loop when it runs out of lines (`cont`: leftover
line buffer, current section, callback state) or returns early (`stop`). -/
inductive LoopOut (σ ε : Type) where
  | cont : List Char → List Char → σ → LoopOut σ ε
  | stop : σ → ReadResult ε → LoopOut σ ε
deriving DecidableEq

/-- The scan loop of `Read` (`for scanner.Scan() { ... }` in `ini.go`),
one iteration per raw line: append the line to `linebuf`; skip (keeping
the buffer) if the buffer is empty or whitespace-only; on a trailing
backslash replace it with `'\n'` and continue accumulating; discard
comment lines starting `'#'`; on `[...]` set the current section to the
bracket contents; on a line containing `'='` trim around the first `'='`
and invoke the callback; otherwise fail with the raw line. -/
def readLoop (cb : σ → Entry → σ × Option ε) :
    List (List Char) → List Char → List Char → σ → LoopOut σ ε
  | [], linebuf, sec, s => .cont linebuf sec s
  | l :: rest, linebuf, sec, s =>
    let buf := linebuf ++ l
    if buf = [] ∨ trimSpace buf = [] then
      readLoop cb rest buf sec s
    else if buf.getLast? = some '\\' then
      readLoop cb rest (buf.dropLast ++ ['\n']) sec s
    else if buf.head? = some '#' then
      readLoop cb rest [] sec s
    else if buf.head? = some '[' ∧ buf.getLast? = some ']' then
      readLoop cb rest [] ((buf.drop 1).dropLast) s
    else
      match splitFirstEq buf with
      | some p =>
        let r := cb s ⟨sec, trimSpace p.1, trimSpace p.2⟩
        match r.2 with
        | none => readLoop cb rest [] sec r.1
        | some e => .stop r.1 (.cbError e)
      | none => .stop s (.malformed buf)

/-- `Read` over a pure input: run the loop on the scanner lines from the
initial state (`linebuf` empty, `ent.Section` empty).  A leftover
continuation buffer at end of stream is dropped and, the stream being
pure, `scanner.Err()` is `nil`, so the run ends in success. -/
def runRead (cb : σ → Entry → σ × Option ε) (input : List Char) (s₀ : σ) :
    σ × ReadResult ε :=
  match readLoop cb (splitLines input) [] [] s₀ with
  | .cont _ _ s => (s, .success)
  | .stop s r => (s, r)

/-- The collecting callback used by the package's own tests: append every
entry, never fail. -/
def collectCb : List Entry → Entry → List Entry × Option Unit :=
  fun s e => (s ++ [e], none)

/-- `Read` with the collecting callback: the list of emitted entries plus
the outcome. -/
def readEntries (input : List Char) : List Entry × ReadResult Unit :=
  runRead collectCb input []

/-- A callback that collects every entry but reports a failure on an
entry whose key is `"c"` (used to exercise error propagation). -/
def failC : List Entry → Entry → List Entry × Option Unit :=
  fun s e => (s ++ [e], if e.Key = ['c'] then some () else none)

/-- The `errWriter` struct: an underlying writer state plus a sticky
error. -/
structure ErrWriter (ω ε : Type) where
  w : ω
  err : Option ε
deriving DecidableEq

/-- `errWriter.Write`: once an error is recorded every further write is a
no-op; otherwise perform the underlying write and record its error. -/
def errWrite (wf : ω → List Char → ω × Option ε) (e : ErrWriter ω ε)
    (p : List Char) : ErrWriter ω ε :=
  match e.err with
  | some _ => e
  | none => ⟨(wf e.w p).1, (wf e.w p).2⟩

/-- The local state of `Write`: the wrapped writer, the `section` variable
and the `wrote` flag. -/
structure WriteSt (ω ε : Type) where
  ew : ErrWriter ω ε
  cursec : List Char
  wrote : Bool
deriving DecidableEq

/-- `escape`: replace every `'\n'` by the two characters `'\\'` `'\n'`
(`strings.ReplaceAll(x, "\n", "\\\n")`). -/
def escape : List Char → List Char
  | [] => []
  | c :: rest =>
    if c = '\n' then '\\' :: '\n' :: escape rest else c :: escape rest

/-- The emit closure passed to the producer callback in `Write`: write a
section header (preceded by a blank separator when output was already
produced) when the section changes, then `key =`, ` value` and the line
terminator, each as one chunk, all through the `errWriter`. -/
def emitEntry (wf : ω → List Char → ω × Option ε) (st : WriteSt ω ε)
    (ent : Entry) : WriteSt ω ε :=
  let st1 : WriteSt ω ε :=
    if ent.Section ≠ st.cursec then
      let ew1 := if st.wrote then errWrite wf st.ew ['\n'] else st.ew
      let ew2 := errWrite wf ew1 ('[' :: (escape ent.Section ++ [']', '\n']))
      ⟨ew2, ent.Section, st.wrote⟩
    else st
  let ew3 := if ent.Key ≠ [] then errWrite wf st1.ew (escape ent.Key ++ [' ']) else st1.ew
  let ew4 := errWrite wf ew3 ['=']
  let ew5 := if ent.Value ≠ [] then errWrite wf ew4 (' ' :: escape ent.Value) else ew4
  let ew6 := errWrite wf ew5 ['\n']
  ⟨ew6, st1.cursec, true⟩

/-- `Write`: run the producer (modelled by its list of emitted entries)
against a fresh `errWriter` over the sink `wf`; the final state carries
the output and `ew.err`, which `Write` returns. -/
def WriteGo (wf : ω → List Char → ω × Option ε) (entries : List Entry)
    (w0 : ω) : WriteSt ω ε :=
  entries.foldl (emitEntry wf) ⟨⟨w0, none⟩, [], false⟩

/-- A sink that accumulates all chunks and never fails. -/
def accumW : List Char → List Char → List Char × Option Unit :=
  fun w p => (w ++ p, none)

/-- The text produced by `Write` on a never-failing sink. -/
def writeString (entries : List Entry) : List Char :=
  (WriteGo accumW entries []).ew.w

/-- The error returned by `Write` (`return ew.err`). -/
def writeErr (wf : ω → List Char → ω × Option ε) (entries : List Entry)
    (w0 : ω) : Option ε :=
  (WriteGo wf entries w0).ew.err

/-- Entries for which serialization round-trips.  The first three
conjuncts characterise the entries the parser can produce at all (keys
and values are emitted trimmed, and a key never contains `'='`); the
last three exclude the serialized forms the parser misclassifies: a key
beginning `'#'` (read back as a comment), a value ending `'\\'` (read
back as a line continuation), and a key beginning `'['` together with a
value ending `']'` (read back as a section header). -/
def GoodEntry (e : Entry) : Prop :=
  trimSpace e.Key = e.Key ∧ '=' ∉ e.Key ∧ trimSpace e.Value = e.Value ∧
  e.Key.head? ≠ some '#' ∧ e.Value.getLast? ≠ some '\\' ∧
  ¬(e.Key.head? = some '[' ∧ e.Value.getLast? = some ']')

instance (e : Entry) : Decidable (GoodEntry e) := by
  unfold GoodEntry; infer_instance

/-- The text `Write` produces for one entry from writer state
(`cursec`, `wrote`): optional separator and section header, then the
entry line. -/
def entryChunk (cursec : List Char) (wrote : Bool) (e : Entry) : List Char :=
  (if e.Section ≠ cursec then
     (if wrote then ['\n'] else []) ++ ('[' :: (escape e.Section ++ [']', '\n']))
   else [])
  ++ (if e.Key ≠ [] then escape e.Key ++ [' '] else []) ++ ['=']
  ++ (if e.Value ≠ [] then ' ' :: escape e.Value else []) ++ ['\n']

/-- Recursive form of the text produced by `Write` on a pure sink. -/
def writeAux : List Char → Bool → List Entry → List Char
  | _, _, [] => []
  | cursec, wrote, e :: es => entryChunk cursec wrote e ++ writeAux e.Section true es

/-- The logical line `Write` lays out for one entry (before escaping):
`key`, a space, `'='`, a space, `value`, with the spaces and parts
omitted for empty key/value. -/
def entryLine (k v : List Char) : List Char :=
  (if k ≠ [] then k ++ [' '] else []) ++ ['=']
  ++ (if v ≠ [] then ' ' :: v else [])

/-! ### Helper lemmas about `escape`, `trimSpace` and `splitFirstEq` -/

theorem escape_append (a b : List Char) : escape (a ++ b) = escape a ++ escape b := by
  induction a with
  | nil => simp [escape]
  | cons c t ih =>
    simp only [List.cons_append, escape]
    split <;> simp [ih]

theorem escape_eq_self (a : List Char) (h : '\n' ∉ a) : escape a = a := by
  induction a with
  | nil => rfl
  | cons c t ih =>
    simp only [List.mem_cons, not_or] at h
    rw [escape, if_neg (fun hc => h.1 hc.symm), ih h.2]

theorem trimLeft_length_le (l : List Char) : (trimLeft l).length ≤ l.length :=
  (List.dropWhile_sublist isSpace).length_le

theorem trimRight_length_le (l : List Char) : (trimRight l).length ≤ l.length := by
  have h := ((List.dropWhile_sublist (l := l.reverse) isSpace)).length_le
  have h2 : (trimRight l).length = (l.reverse.dropWhile isSpace).length := by
    simp [trimRight]
  rw [h2]
  simpa using h

theorem trim32_of_fix {l : List Char} (h : trimSpace l = l) :
    trimLeft l = l ∧ trimRight l = l := by
  have h1 : l.length ≤ (trimLeft l).length := by
    have hr : (trimSpace l).length ≤ (trimLeft l).length := trimRight_length_le (trimLeft l)
    rwa [h] at hr
  have h2 : trimLeft l = l :=
    (List.dropWhile_sublist isSpace).eq_of_length
      (Nat.le_antisymm (trimLeft_length_le l) h1)
  refine ⟨h2, ?_⟩
  have h' : trimRight (trimLeft l) = l := h
  rwa [h2] at h'

theorem dropWhile_rev_of_trimRight {l : List Char} (h : trimRight l = l) :
    l.reverse.dropWhile isSpace = l.reverse := by
  have h' : (l.reverse.dropWhile isSpace).reverse = l := h
  have h2 := congrArg List.reverse h'
  rwa [List.reverse_reverse] at h2

theorem head_not_space {l : List Char} (h : trimSpace l = l) (hne : l ≠ []) :
    ∃ c t, l = c :: t ∧ isSpace c = false := by
  obtain ⟨c, t, rfl⟩ := List.exists_cons_of_ne_nil hne
  have h2 := (trim32_of_fix h).1
  cases hcs : isSpace c with
  | false => exact ⟨c, t, rfl, hcs⟩
  | true =>
    exfalso
    unfold trimLeft at h2
    rw [List.dropWhile_cons, if_pos hcs] at h2
    have hlen := (List.dropWhile_sublist (l := t) isSpace).length_le
    rw [h2] at hlen
    simp at hlen

theorem getLast_not_space {l : List Char} (h : trimSpace l = l) (hne : l ≠ []) :
    ∃ c, l.getLast? = some c ∧ isSpace c = false := by
  have h2 := dropWhile_rev_of_trimRight (trim32_of_fix h).2
  have hrev : l.reverse ≠ [] := by simpa using hne
  obtain ⟨c, t, hct⟩ := List.exists_cons_of_ne_nil hrev
  have hc : l.getLast? = some c := by rw [← List.head?_reverse, hct]; rfl
  cases hcs : isSpace c with
  | false => exact ⟨c, hc, hcs⟩
  | true =>
    exfalso
    rw [hct, List.dropWhile_cons, if_pos hcs] at h2
    have hlen := (List.dropWhile_sublist (l := t) isSpace).length_le
    rw [h2] at hlen
    simp at hlen

theorem trimSpace_ne_nil_of_mem {l : List Char} {c : Char} (hc : c ∈ l)
    (hs : isSpace c = false) : trimSpace l ≠ [] := by
  have h1 : c ∈ trimLeft l := by
    have hmem : c ∈ l.takeWhile isSpace ++ l.dropWhile isSpace := by
      rw [List.takeWhile_append_dropWhile]; exact hc
    rcases List.mem_append.mp hmem with h | h
    · have := List.mem_takeWhile_imp h
      simp [hs] at this
    · exact h
  intro h
  have h2 : (trimLeft l).reverse.dropWhile isSpace = [] := by
    have h' : ((trimLeft l).reverse.dropWhile isSpace).reverse = [] := h
    have := congrArg List.reverse h'
    rwa [List.reverse_reverse] at this
  have := List.dropWhile_eq_nil_iff.mp h2 c (List.mem_reverse.mpr h1)
  simp [hs] at this

theorem trimSpace_key_space {k : List Char} (hk : trimSpace k = k) :
    trimSpace (k ++ [' ']) = k := by
  rcases eq_or_ne k [] with rfl | hne
  · rfl
  · obtain ⟨c, t, rfl, hcs⟩ := head_not_space hk hne
    have h1 : trimLeft ((c :: t) ++ [' ']) = (c :: t) ++ [' '] := by
      unfold trimLeft
      rw [List.cons_append, List.dropWhile_cons, if_neg (by simp [hcs])]
    have h2 : trimSpace ((c :: t) ++ [' ']) = trimRight ((c :: t) ++ [' ']) := by
      unfold trimSpace; rw [h1]
    rw [h2]
    have h3 : ((c :: t) ++ [' ']).reverse.dropWhile isSpace
        = (c :: t).reverse.dropWhile isSpace := by
      rw [List.reverse_append]
      show List.dropWhile isSpace (' ' :: (c :: t).reverse) = _
      rw [List.dropWhile_cons, if_pos (by decide)]
    unfold trimRight
    rw [h3, dropWhile_rev_of_trimRight (trim32_of_fix hk).2, List.reverse_reverse]

theorem trimSpace_space_val {v : List Char} (hv : trimSpace v = v) :
    trimSpace (' ' :: v) = v := by
  have h1 : trimLeft (' ' :: v) = trimLeft v := by
    unfold trimLeft
    rw [List.dropWhile_cons, if_pos (by decide)]
  have h2 : trimSpace (' ' :: v) = trimRight (trimLeft v) := by
    unfold trimSpace; rw [h1]
  rw [h2, (trim32_of_fix hv).1]
  exact (trim32_of_fix hv).2

theorem splitFirstEq_append {k : List Char} (v : List Char) (h : '=' ∉ k) :
    splitFirstEq (k ++ '=' :: v) = some (k, v) := by
  induction k with
  | nil => simp [splitFirstEq]
  | cons c t ih =>
    simp only [List.mem_cons, not_or] at h
    simp only [List.cons_append, splitFirstEq, List.append_eq]
    rw [if_neg (fun hc => h.1 hc.symm), ih h.2]
    rfl

theorem splitFirstEq_no_eq {l : List Char} (h : '=' ∉ l) : splitFirstEq l = none := by
  induction l with
  | nil => rfl
  | cons c t ih =>
    simp only [List.mem_cons, not_or] at h
    simp only [splitFirstEq]
    rw [if_neg (fun hc => h.1 hc.symm), ih h.2]
    rfl

theorem splitFirstEq_some {l : List Char} {p : List Char × List Char}
    (h : splitFirstEq l = some p) : l = p.1 ++ '=' :: p.2 := by
  induction l generalizing p with
  | nil => cases h
  | cons c t ih =>
    simp only [splitFirstEq] at h
    by_cases hc : c = '='
    · rw [if_pos hc] at h
      cases h
      simpa using hc
    · rw [if_neg hc] at h
      cases hq : splitFirstEq t with
      | none => rw [hq] at h; cases h
      | some q =>
        rw [hq] at h
        have h' : some ((c :: q.1, q.2) : List Char × List Char) = some p := h
        cases h'
        have h1 := ih hq
        simp [h1]

theorem splitFirstEq_mem {l : List Char} (h : '=' ∈ l) :
    splitFirstEq l
      = some (l.takeWhile (fun c => c != '='), (l.dropWhile (fun c => c != '=')).tail) := by
  induction l with
  | nil => cases h
  | cons c t ih =>
    by_cases hc : c = '='
    · subst hc
      have h1 : List.takeWhile (fun c => c != '=') ('=' :: t) = [] := by
        rw [List.takeWhile_cons, if_neg (by simp)]
      have h2 : List.dropWhile (fun c => c != '=') ('=' :: t) = '=' :: t := by
        rw [List.dropWhile_cons, if_neg (by simp)]
      rw [h1, h2]
      simp [splitFirstEq]
    · have ht : '=' ∈ t := by
        rcases List.mem_cons.mp h with h1 | h1
        · exact absurd h1.symm hc
        · exact h1
      have h1 : List.takeWhile (fun c => c != '=') (c :: t)
          = c :: List.takeWhile (fun c => c != '=') t := by
        rw [List.takeWhile_cons, if_pos (by simp [hc])]
      have h2 : List.dropWhile (fun c => c != '=') (c :: t)
          = List.dropWhile (fun c => c != '=') t := by
        rw [List.dropWhile_cons, if_pos (by simp [hc])]
      rw [h1, h2]
      simp only [splitFirstEq]
      rw [if_neg hc, ih ht]
      rfl

/-! ### Helper lemmas about `splitLines` -/

theorem splitLinesAux_cons_nl (acc b : List Char) :
    splitLinesAux acc ('\n' :: b) = dropCR acc.reverse :: splitLinesAux [] b := rfl

theorem splitLinesAux_cons_other {c : Char} (hc : c ≠ '\n') (acc b : List Char) :
    splitLinesAux acc (c :: b) = splitLinesAux (c :: acc) b := by
  show (if c = '\n' then dropCR acc.reverse :: splitLinesAux [] b
        else splitLinesAux (c :: acc) b) = _
  rw [if_neg hc]

theorem splitLinesAux_unit_append (a : List Char) :
    ∀ (acc b : List Char),
      splitLinesAux acc ((a ++ ['\n']) ++ b)
        = splitLinesAux acc (a ++ ['\n']) ++ splitLinesAux [] b := by
  induction a with
  | nil =>
    intro acc b
    show splitLinesAux acc ('\n' :: b)
      = splitLinesAux acc ('\n' :: []) ++ splitLinesAux [] b
    rw [splitLinesAux_cons_nl, splitLinesAux_cons_nl]
    rfl
  | cons c t ih =>
    intro acc b
    show splitLinesAux acc (c :: ((t ++ ['\n']) ++ b))
      = splitLinesAux acc (c :: (t ++ ['\n'])) ++ splitLinesAux [] b
    by_cases hc : c = '\n'
    · subst hc
      rw [splitLinesAux_cons_nl, splitLinesAux_cons_nl, ih]
      rfl
    · rw [splitLinesAux_cons_other hc, splitLinesAux_cons_other hc]
      exact ih (c :: acc) b

theorem splitLines_unit_append (a b : List Char) :
    splitLines ((a ++ ['\n']) ++ b) = splitLines (a ++ ['\n']) ++ splitLines b :=
  splitLinesAux_unit_append a [] b

theorem splitLinesAux_no_nl (a : List Char) (h : '\n' ∉ a) :
    ∀ (acc b : List Char),
      splitLinesAux acc (a ++ '\n' :: b)
        = dropCR (acc.reverse ++ a) :: splitLinesAux [] b := by
  induction a with
  | nil =>
    intro acc b
    show splitLinesAux acc ('\n' :: b) = _
    rw [splitLinesAux_cons_nl]
    simp
  | cons c t ih =>
    simp only [List.mem_cons, not_or] at h
    intro acc b
    show splitLinesAux acc (c :: (t ++ '\n' :: b)) = _
    rw [splitLinesAux_cons_other (fun hc : c = '\n' => h.1 hc.symm), ih h.2]
    simp

theorem splitLines_single (a : List Char) (h : '\n' ∉ a) :
    splitLines (a ++ ['\n']) = [dropCR a] := by
  have h2 := splitLinesAux_no_nl a h [] []
  simpa [splitLines, splitLinesAux] using h2

/-! ### Step and composition lemmas about `readLoop` -/

/-- One unfolding of `readLoop` on a cons cell, with the `let`-bound
buffer expanded. -/
theorem readLoop_cons (cb : σ → Entry → σ × Option ε)
    (l : List Char) (rest : List (List Char)) (linebuf sec : List Char) (s : σ) :
    readLoop cb (l :: rest) linebuf sec s
      = (if linebuf ++ l = [] ∨ trimSpace (linebuf ++ l) = [] then
          readLoop cb rest (linebuf ++ l) sec s
        else if (linebuf ++ l).getLast? = some '\\' then
          readLoop cb rest ((linebuf ++ l).dropLast ++ ['\n']) sec s
        else if (linebuf ++ l).head? = some '#' then
          readLoop cb rest [] sec s
        else if (linebuf ++ l).head? = some '[' ∧ (linebuf ++ l).getLast? = some ']' then
          readLoop cb rest [] (((linebuf ++ l).drop 1).dropLast) s
        else
          match splitFirstEq (linebuf ++ l) with
          | some p =>
            match (cb s ⟨sec, trimSpace p.1, trimSpace p.2⟩).2 with
            | none => readLoop cb rest [] sec (cb s ⟨sec, trimSpace p.1, trimSpace p.2⟩).1
            | some e => .stop ((cb s ⟨sec, trimSpace p.1, trimSpace p.2⟩).1) (.cbError e)
          | none => .stop s (.malformed (linebuf ++ l))) := rfl

theorem readLoop_append (cb : σ → Entry → σ × Option ε) :
    ∀ (xs ys : List (List Char)) (buf sec : List Char) (s : σ),
      readLoop cb (xs ++ ys) buf sec s
        = match readLoop cb xs buf sec s with
          | .cont b c t => readLoop cb ys b c t
          | .stop t r => .stop t r := by
  intro xs
  induction xs with
  | nil => intro ys buf sec s; rfl
  | cons l rest ih =>
    intro ys buf sec s
    show readLoop cb (l :: (rest ++ ys)) buf sec s = _
    rw [readLoop_cons, readLoop_cons]
    by_cases h1 : buf ++ l = [] ∨ trimSpace (buf ++ l) = []
    · rw [if_pos h1, if_pos h1, ih]
    · rw [if_neg h1, if_neg h1]
      by_cases h2 : (buf ++ l).getLast? = some '\\'
      · rw [if_pos h2, if_pos h2, ih]
      · rw [if_neg h2, if_neg h2]
        by_cases h3 : (buf ++ l).head? = some '#'
        · rw [if_pos h3, if_pos h3, ih]
        · rw [if_neg h3, if_neg h3]
          by_cases h4 : (buf ++ l).head? = some '[' ∧ (buf ++ l).getLast? = some ']'
          · rw [if_pos h4, if_pos h4, ih]
          · rw [if_neg h4, if_neg h4]
            cases hsp : splitFirstEq (buf ++ l) with
            | none => rfl
            | some p =>
              show (match (cb s ⟨sec, trimSpace p.1, trimSpace p.2⟩).2 with
                    | none => readLoop cb (rest ++ ys) [] sec
                        (cb s ⟨sec, trimSpace p.1, trimSpace p.2⟩).1
                    | some e => LoopOut.stop
                        (cb s ⟨sec, trimSpace p.1, trimSpace p.2⟩).1 (.cbError e))
                  = match (match (cb s ⟨sec, trimSpace p.1, trimSpace p.2⟩).2 with
                          | none => readLoop cb rest [] sec
                              (cb s ⟨sec, trimSpace p.1, trimSpace p.2⟩).1
                          | some e => LoopOut.stop
                              (cb s ⟨sec, trimSpace p.1, trimSpace p.2⟩).1 (.cbError e)) with
                    | LoopOut.cont b c t => readLoop cb ys b c t
                    | LoopOut.stop t r => LoopOut.stop t r
              cases hcb : (cb s ⟨sec, trimSpace p.1, trimSpace p.2⟩).2 with
              | none => exact ih ys [] sec _
              | some e => rfl

theorem readLoop_step_blank (cb : σ → Entry → σ × Option ε)
    (l : List Char) (rest : List (List Char)) (B sec : List Char) (s : σ)
    (h : B ++ l = [] ∨ trimSpace (B ++ l) = []) :
    readLoop cb (l :: rest) B sec s = readLoop cb rest (B ++ l) sec s := by
  rw [readLoop_cons, if_pos h]

theorem readLoop_step_cont (cb : σ → Entry → σ × Option ε)
    (l : List Char) (rest : List (List Char)) (B sec : List Char) (s : σ)
    (h : (B ++ l).getLast? = some '\\') :
    readLoop cb (l :: rest) B sec s
      = readLoop cb rest ((B ++ l).dropLast ++ ['\n']) sec s := by
  have hmem : '\\' ∈ B ++ l := by
    rcases List.getLast?_eq_some_iff.mp h with ⟨ys, hys⟩
    rw [hys]; simp
  have hne : ¬(B ++ l = [] ∨ trimSpace (B ++ l) = []) := by
    intro hor
    rcases hor with h1 | h1
    · rw [h1] at hmem; cases hmem
    · exact trimSpace_ne_nil_of_mem hmem (by decide) h1
  rw [readLoop_cons, if_neg hne, if_pos h]

theorem readLoop_step_comment (cb : σ → Entry → σ × Option ε)
    (l : List Char) (rest : List (List Char)) (B sec : List Char) (s : σ)
    (hb : trimSpace (B ++ l) ≠ [])
    (hc : (B ++ l).getLast? ≠ some '\\')
    (hh : (B ++ l).head? = some '#') :
    readLoop cb (l :: rest) B sec s = readLoop cb rest [] sec s := by
  have hne : ¬(B ++ l = [] ∨ trimSpace (B ++ l) = []) := by
    intro hor
    rcases hor with h1 | h1
    · rw [h1] at hh; cases hh
    · exact hb h1
  rw [readLoop_cons, if_neg hne, if_neg hc, if_pos hh]

theorem readLoop_step_section (cb : σ → Entry → σ × Option ε)
    (l : List Char) (rest : List (List Char)) (B sec : List Char) (s : σ)
    (hh : (B ++ l).head? = some '[') (he : (B ++ l).getLast? = some ']') :
    readLoop cb (l :: rest) B sec s
      = readLoop cb rest [] (((B ++ l).drop 1).dropLast) s := by
  have hmem : '[' ∈ B ++ l := by
    rcases List.head?_eq_some_iff.mp hh with ⟨ys, hys⟩
    rw [hys]; simp
  have hne : ¬(B ++ l = [] ∨ trimSpace (B ++ l) = []) := by
    intro hor
    rcases hor with h1 | h1
    · rw [h1] at hh; cases hh
    · exact trimSpace_ne_nil_of_mem hmem (by decide) h1
  have hc : (B ++ l).getLast? ≠ some '\\' := by rw [he]; decide
  have hhash : (B ++ l).head? ≠ some '#' := by rw [hh]; decide
  rw [readLoop_cons, if_neg hne, if_neg hc, if_neg hhash, if_pos ⟨hh, he⟩]

theorem readLoop_step_entry (cb : σ → Entry → σ × Option ε)
    (l : List Char) (rest : List (List Char)) (B sec : List Char) (s : σ)
    {k v : List Char}
    (hc : (B ++ l).getLast? ≠ some '\\')
    (hh : (B ++ l).head? ≠ some '#')
    (hs : ¬((B ++ l).head? = some '[' ∧ (B ++ l).getLast? = some ']'))
    (hsp : splitFirstEq (B ++ l) = some (k, v)) :
    readLoop cb (l :: rest) B sec s
      = match (cb s ⟨sec, trimSpace k, trimSpace v⟩).2 with
        | none => readLoop cb rest [] sec (cb s ⟨sec, trimSpace k, trimSpace v⟩).1
        | some e => .stop (cb s ⟨sec, trimSpace k, trimSpace v⟩).1 (.cbError e) := by
  have hmem : '=' ∈ B ++ l := by
    rw [splitFirstEq_some hsp]; simp
  have hne : ¬(B ++ l = [] ∨ trimSpace (B ++ l) = []) := by
    intro hor
    rcases hor with h1 | h1
    · rw [h1] at hmem; cases hmem
    · exact trimSpace_ne_nil_of_mem hmem (by decide) h1
  rw [readLoop_cons, if_neg hne, if_neg hc, if_neg hh, if_neg hs, hsp]

theorem readLoop_step_malformed (cb : σ → Entry → σ × Option ε)
    (l : List Char) (rest : List (List Char)) (B sec : List Char) (s : σ)
    (hb : trimSpace (B ++ l) ≠ []) (hn : B ++ l ≠ [])
    (hc : (B ++ l).getLast? ≠ some '\\')
    (hh : (B ++ l).head? ≠ some '#')
    (hs : ¬((B ++ l).head? = some '[' ∧ (B ++ l).getLast? = some ']'))
    (hsp : splitFirstEq (B ++ l) = none) :
    readLoop cb (l :: rest) B sec s = .stop s (.malformed (B ++ l)) := by
  have hne : ¬(B ++ l = [] ∨ trimSpace (B ++ l) = []) := by
    intro hor
    rcases hor with h1 | h1
    · exact hn h1
    · exact hb h1
  rw [readLoop_cons, if_neg hne, if_neg hc, if_neg hh, if_neg hs, hsp]

theorem mem_split_first {a : Char} : ∀ {L : List Char}, a ∈ L →
    ∃ s₀ L₂, L = s₀ ++ a :: L₂ ∧ a ∉ s₀ := by
  intro L
  induction L with
  | nil => intro h; cases h
  | cons c t ih =>
    intro h
    by_cases hc : c = a
    · subst hc; exact ⟨[], t, rfl, by simp⟩
    · have ht : a ∈ t := by
        rcases List.mem_cons.mp h with h1 | h1
        · exact absurd h1.symm hc
        · exact h1
      obtain ⟨s₀, L₂, heq, hns⟩ := ih ht
      refine ⟨c :: s₀, L₂, by rw [heq]; rfl, ?_⟩
      simp only [List.mem_cons, not_or]
      exact ⟨fun hx => hc hx.symm, hns⟩

theorem getLast?_append_cons {a : Char} {x y : List Char} (h : y ≠ []) :
    (x ++ a :: y).getLast? = y.getLast? := by
  rcases List.eq_nil_or_concat y with rfl | ⟨t, b, rfl⟩
  · exact absurd rfl h
  · rw [List.concat_eq_append, List.getLast?_concat]
    have h2 : x ++ a :: (t ++ [b]) = (x ++ a :: t) ++ [b] := by simp
    rw [h2, List.getLast?_concat]

/-- Joining: the raw lines that `escape L ++ "\n"` splits into are
re-joined by the continuation logic of `readLoop` into the single
logical line `L`, appended to whatever partial buffer `B` was live. -/
theorem readLoop_join_nonl (cb : σ → Entry → σ × Option ε) (L : List Char)
    (hnl : '\n' ∉ L) (hcr : L.getLast? ≠ some '\r')
    (B : List Char) (rest : List (List Char)) (sec : List Char) (s : σ) :
    readLoop cb (splitLines (escape L ++ ['\n']) ++ rest) B sec s
      = readLoop cb ((B ++ L) :: rest) [] sec s := by
  rw [escape_eq_self L hnl, splitLines_single L hnl]
  have hdc : dropCR L = L := by unfold dropCR; rw [if_neg hcr]
  rw [hdc]
  show readLoop cb (L :: rest) B sec s = _
  simp only [readLoop, List.nil_append]

theorem readLoop_join (cb : σ → Entry → σ × Option ε) :
    ∀ (n : ℕ) (L : List Char), L.length ≤ n →
      ∀ (B : List Char) (rest : List (List Char)) (sec : List Char) (s : σ),
        L.getLast? ≠ some '\r' →
        readLoop cb (splitLines (escape L ++ ['\n']) ++ rest) B sec s
          = readLoop cb ((B ++ L) :: rest) [] sec s := by
  intro n
  induction n with
  | zero =>
    intro L hL B rest sec s hcr
    have hnil : L = [] := List.length_eq_zero.mp (Nat.le_zero.mp hL)
    subst hnil
    exact readLoop_join_nonl cb [] (by simp) hcr B rest sec s
  | succ m ih =>
    intro L hL B rest sec s hcr
    by_cases hnl : '\n' ∈ L
    · obtain ⟨s₀, L₂, rfl, hs₀⟩ := mem_split_first hnl
      have hesc : escape (s₀ ++ '\n' :: L₂) ++ ['\n']
          = (s₀ ++ ['\\']) ++ '\n' :: (escape L₂ ++ ['\n']) := by
        rw [escape_append, escape_eq_self s₀ hs₀]
        have h3 : escape ('\n' :: L₂) = '\\' :: '\n' :: escape L₂ := by
          simp [escape]
        rw [h3]
        simp
      rw [hesc]
      have hnosnl : '\n' ∉ s₀ ++ ['\\'] := by
        intro hmem
        rcases List.mem_append.mp hmem with h | h
        · exact hs₀ h
        · exact absurd (List.mem_singleton.mp h) (by decide)
      have hsl2 : splitLines ((s₀ ++ ['\\']) ++ '\n' :: (escape L₂ ++ ['\n']))
          = (s₀ ++ ['\\']) :: splitLines (escape L₂ ++ ['\n']) := by
        show splitLinesAux [] _ = _
        rw [splitLinesAux_no_nl (s₀ ++ ['\\']) hnosnl [] (escape L₂ ++ ['\n'])]
        simp only [List.reverse_nil, List.nil_append]
        rw [show dropCR (s₀ ++ ['\\']) = s₀ ++ ['\\'] from by
          unfold dropCR; rw [List.getLast?_concat, if_neg (by decide)]]
        rfl
      rw [hsl2, List.cons_append]
      rw [readLoop_step_cont cb (s₀ ++ ['\\'])
        (splitLines (escape L₂ ++ ['\n']) ++ rest) B sec s
        (by rw [show B ++ (s₀ ++ ['\\']) = (B ++ s₀) ++ ['\\'] from by simp,
              List.getLast?_concat])]
      have hdl : (B ++ (s₀ ++ ['\\'])).dropLast ++ ['\n'] = (B ++ s₀) ++ ['\n'] := by
        rw [show B ++ (s₀ ++ ['\\']) = (B ++ s₀) ++ ['\\'] from by simp,
          List.dropLast_concat]
      rw [hdl]
      have hlen : L₂.length ≤ m := by
        have := hL
        simp only [List.length_append, List.length_cons] at this
        omega
      have hcr2 : L₂.getLast? ≠ some '\r' := by
        rcases eq_or_ne L₂ [] with rfl | hne
        · simp
        · rw [← getLast?_append_cons (x := s₀) (a := '\n') hne]
          exact hcr
      rw [ih L₂ hlen ((B ++ s₀) ++ ['\n']) rest sec s hcr2]
      have hfin : ((B ++ s₀) ++ ['\n']) ++ L₂ = B ++ (s₀ ++ '\n' :: L₂) := by
        simp
      rw [hfin]
    · exact readLoop_join_nonl cb L hnl hcr B rest sec s

/-! ### The pure-sink output of `Write` in recursive form -/

theorem emitEntry_accum (w cs : List Char) (wr : Bool) (e : Entry) :
    emitEntry accumW ⟨⟨w, none⟩, cs, wr⟩ e
      = ⟨⟨w ++ entryChunk cs wr e, none⟩, e.Section, true⟩ := by
  by_cases hsec : e.Section = cs <;>
    by_cases hk : e.Key = [] <;>
      by_cases hv : e.Value = [] <;>
        cases wr <;>
          simp [emitEntry, entryChunk, errWrite, accumW, hsec, hk, hv]

theorem foldl_emitEntry_accum :
    ∀ (es : List Entry) (w cs : List Char) (wr : Bool),
      (es.foldl (emitEntry accumW) ⟨⟨w, none⟩, cs, wr⟩).ew.w
        = w ++ writeAux cs wr es := by
  intro es
  induction es with
  | nil => intro w cs wr; simp [writeAux]
  | cons e t ih =>
    intro w cs wr
    rw [List.foldl_cons, emitEntry_accum]
    show _ = w ++ (entryChunk cs wr e ++ writeAux e.Section true t)
    rw [ih]
    simp

theorem writeString_eq_writeAux (es : List Entry) :
    writeString es = writeAux [] false es := by
  have h := foldl_emitEntry_accum es [] [] false
  simpa [writeString, WriteGo] using h

/-! ### Escaped forms of the logical lines `Write` produces -/

theorem escape_header (sec : List Char) :
    escape ('[' :: (sec ++ [']'])) = '[' :: (escape sec ++ [']']) := by
  have h1 : escape ('[' :: (sec ++ [']'])) = '[' :: escape (sec ++ [']']) := rfl
  rw [h1, escape_append]
  rfl

theorem escape_entryLine (k v : List Char) :
    escape (entryLine k v)
      = (if k ≠ [] then escape k ++ [' '] else []) ++ ['=']
        ++ (if v ≠ [] then ' ' :: escape v else []) := by
  unfold entryLine
  rw [escape_append, escape_append]
  have h1 : escape (if k ≠ [] then k ++ [' '] else [])
      = (if k ≠ [] then escape k ++ [' '] else []) := by
    split
    · rw [escape_append]; rfl
    · rfl
  have h2 : escape (if v ≠ [] then ' ' :: v else [])
      = (if v ≠ [] then ' ' :: escape v else []) := by
    split
    · rfl
    · rfl
  rw [h1, h2]
  rfl

theorem entryLine_head_cons (c : Char) (t v : List Char) :
    (entryLine (c :: t) v).head? = some c := rfl

theorem entryLine_head_nil (v : List Char) : (entryLine [] v).head? = some '=' := rfl

theorem entryLine_getLast_nil (k : List Char) : (entryLine k []).getLast? = some '=' := by
  have h : entryLine k [] = (if k ≠ [] then k ++ [' '] else []) ++ ['='] := by
    unfold entryLine
    rw [if_neg (fun hx : ([] : List Char) ≠ [] => hx rfl), List.append_nil]
  rw [h]
  exact List.getLast?_concat _

theorem entryLine_getLast_of_ne (k : List Char) {v : List Char} (hv : v ≠ []) :
    (entryLine k v).getLast? = v.getLast? := by
  unfold entryLine
  rw [if_pos hv]
  exact getLast?_append_cons hv

/-! ### Processing one serialized unit -/

theorem splitLines_nl_cons (b : List Char) :
    splitLines ('\n' :: b) = [] :: splitLines b := by
  show splitLinesAux [] ('\n' :: b) = _
  rw [splitLinesAux_cons_nl]
  rfl

theorem readLoop_blank_line (cb : σ → Entry → σ × Option ε)
    (lines : List (List Char)) (sec : List Char) (s : σ) :
    readLoop cb ([] :: lines) [] sec s = readLoop cb lines [] sec s := by
  have h := readLoop_step_blank cb [] lines [] sec s (Or.inl rfl)
  simpa using h

theorem readLoop_unit_header (cb : σ → Entry → σ × Option ε)
    (sec' : List Char) (rest : List (List Char)) (sec : List Char) (s : σ) :
    readLoop cb (splitLines (escape ('[' :: (sec' ++ [']'])) ++ ['\n']) ++ rest) [] sec s
      = readLoop cb rest [] sec' s := by
  have hlast : ('[' :: (sec' ++ [']'])).getLast? = some ']' :=
    List.getLast?_concat ('[' :: sec')
  rw [readLoop_join cb ('[' :: (sec' ++ [']'])).length _ le_rfl [] rest sec s
    (by rw [hlast]; decide)]
  rw [List.nil_append]
  rw [readLoop_step_section cb _ rest [] sec s (by simp) (by simpa using hlast)]
  have hsec : ((([] : List Char) ++ ('[' :: (sec' ++ [']']))).drop 1).dropLast = sec' := by
    simp
  rw [hsec]

theorem readLoop_unit_entry (k v : List Char) (rest : List (List Char))
    (sec : List Char) (s : List Entry)
    (hk : trimSpace k = k) (hknoeq : '=' ∉ k) (hv : trimSpace v = v)
    (hkc : k.head? ≠ some '#') (hvc : v.getLast? ≠ some '\\')
    (hks : ¬(k.head? = some '[' ∧ v.getLast? = some ']')) :
    readLoop collectCb (splitLines (escape (entryLine k v) ++ ['\n']) ++ rest) [] sec s
      = readLoop collectCb rest [] sec (s ++ [⟨sec, k, v⟩]) := by
  have hgl : (entryLine k v).getLast? = some '='
      ∨ ((entryLine k v).getLast? = v.getLast? ∧ v ≠ []) := by
    rcases eq_or_ne v [] with rfl | hne
    · exact Or.inl (entryLine_getLast_nil k)
    · exact Or.inr ⟨entryLine_getLast_of_ne k hne, hne⟩
  have hgh : (entryLine k v).head? = some '='
      ∨ ((entryLine k v).head? = k.head? ∧ k ≠ []) := by
    rcases eq_or_ne k [] with rfl | hne
    · exact Or.inl (entryLine_head_nil v)
    · obtain ⟨c, t, rfl⟩ := List.exists_cons_of_ne_nil hne
      exact Or.inr ⟨entryLine_head_cons c t v, hne⟩
  have hcr : (entryLine k v).getLast? ≠ some '\r' := by
    rcases hgl with h | ⟨h, hne⟩
    · rw [h]; decide
    · rw [h]
      obtain ⟨c, hc1, hc2⟩ := getLast_not_space hv hne
      rw [hc1]
      intro hx
      have hcc : c = '\r' := Option.some.inj hx
      subst hcc
      exact absurd hc2 (by decide)
  have hbs : (entryLine k v).getLast? ≠ some '\\' := by
    rcases hgl with h | ⟨h, _⟩
    · rw [h]; decide
    · rw [h]; exact hvc
  have hh : (entryLine k v).head? ≠ some '#' := by
    rcases hgh with h | ⟨h, _⟩
    · rw [h]; decide
    · rw [h]; exact hkc
  have hsection : ¬((entryLine k v).head? = some '['
      ∧ (entryLine k v).getLast? = some ']') := by
    rintro ⟨h1, h2⟩
    rcases hgh with h | ⟨h, _⟩
    · rw [h] at h1; exact absurd h1 (by decide)
    · rw [h] at h1
      rcases hgl with h' | ⟨h', _⟩
      · rw [h'] at h2; exact absurd h2 (by decide)
      · rw [h'] at h2; exact hks ⟨h1, h2⟩
  rw [readLoop_join collectCb (entryLine k v).length _ le_rfl [] rest sec s hcr]
  rw [List.nil_append]
  have hkp : '=' ∉ (if k ≠ [] then k ++ [' '] else []) := by
    split
    · intro hx
      rcases List.mem_append.mp hx with h | h
      · exact hknoeq h
      · exact absurd (List.mem_singleton.mp h) (by decide)
    · simp
  have hsplit : splitFirstEq (entryLine k v)
      = some ((if k ≠ [] then k ++ [' '] else []), (if v ≠ [] then ' ' :: v else [])) := by
    have heq : entryLine k v
        = (if k ≠ [] then k ++ [' '] else []) ++ '=' :: (if v ≠ [] then ' ' :: v else []) := by
      unfold entryLine
      simp
    rw [heq]
    exact splitFirstEq_append _ hkp
  rw [readLoop_step_entry collectCb (entryLine k v) rest [] sec s
    (by rw [List.nil_append]; exact hbs) (by rw [List.nil_append]; exact hh)
    (by rw [List.nil_append]; exact hsection) (by rw [List.nil_append]; exact hsplit)]
  have htk : trimSpace (if k ≠ [] then k ++ [' '] else []) = k := by
    split
    · exact trimSpace_key_space hk
    · rename_i hxx
      push_neg at hxx
      rw [hxx]; rfl
  have htv : trimSpace (if v ≠ [] then ' ' :: v else []) = v := by
    split
    · exact trimSpace_space_val hv
    · rename_i hxx
      push_neg at hxx
      rw [hxx]; rfl
  rw [htk, htv]
  rfl

/-- The round-trip induction: reading back the output of `Write` for a
list of good entries extends the collected list by exactly those entries,
leaves the line buffer empty, and tracks the last written section. -/
theorem roundAux : ∀ (es : List Entry), (∀ e ∈ es, GoodEntry e) →
    ∀ (cs : List Char) (wr : Bool) (s : List Entry),
      readLoop collectCb (splitLines (writeAux cs wr es)) [] cs s
        = .cont [] (es.foldl (fun _ e => e.Section) cs) (s ++ es) := by
  intro es
  induction es with
  | nil =>
    intro _ cs wr s
    show readLoop collectCb (splitLines []) [] cs s = LoopOut.cont [] cs (s ++ [])
    rw [List.append_nil]
    rfl
  | cons e t ih =>
    intro hgood cs wr s
    obtain ⟨esec, ek, ev⟩ := e
    have hge := hgood ⟨esec, ek, ev⟩ (by simp)
    have hgt : ∀ x ∈ t, GoodEntry x := fun x hx => hgood x (List.mem_cons_of_mem _ hx)
    obtain ⟨hk, hknoeq, hv, hkc, hvc, hks⟩ := hge
    show readLoop collectCb
        (splitLines (entryChunk cs wr ⟨esec, ek, ev⟩ ++ writeAux esec true t)) [] cs s = _
    by_cases hsec : esec = cs
    · subst hsec
      have hchunk : entryChunk esec wr (⟨esec, ek, ev⟩ : Entry) ++ writeAux esec true t
          = (escape (entryLine ek ev) ++ ['\n']) ++ writeAux esec true t := by
        unfold entryChunk
        rw [if_neg (fun hx : esec ≠ esec => hx rfl)]
        rw [escape_entryLine]
        simp
      rw [hchunk, splitLines_unit_append,
        readLoop_unit_entry ek ev _ esec s hk hknoeq hv hkc hvc hks,
        ih hgt esec true (s ++ [(⟨esec, ek, ev⟩ : Entry)])]
      simp
    · have hchunk : entryChunk cs wr (⟨esec, ek, ev⟩ : Entry) ++ writeAux esec true t
          = (if wr then ['\n'] else [])
            ++ ((escape ('[' :: (esec ++ [']'])) ++ ['\n'])
              ++ ((escape (entryLine ek ev) ++ ['\n']) ++ writeAux esec true t)) := by
        unfold entryChunk
        rw [if_pos (fun hx : esec = cs => hsec hx)]
        rw [escape_entryLine, escape_header]
        simp
      rw [hchunk]
      cases wr with
      | false =>
        rw [if_neg Bool.false_ne_true, List.nil_append,
          splitLines_unit_append, readLoop_unit_header collectCb esec,
          splitLines_unit_append,
          readLoop_unit_entry ek ev _ esec s hk hknoeq hv hkc hvc hks,
          ih hgt esec true (s ++ [(⟨esec, ek, ev⟩ : Entry)])]
        simp
      | true =>
        rw [if_pos rfl, List.singleton_append, splitLines_nl_cons,
          readLoop_blank_line,
          splitLines_unit_append, readLoop_unit_header collectCb esec,
          splitLines_unit_append,
          readLoop_unit_entry ek ev _ esec s hk hknoeq hv hkc hvc hks,
          ih hgt esec true (s ++ [(⟨esec, ek, ev⟩ : Entry)])]
        simp

/-! ### Error suppression in the writer -/

theorem errWrite_of_err {wf : ω → List Char → ω × Option ε} {e : ErrWriter ω ε}
    {x : ε} (h : e.err = some x) (p : List Char) : errWrite wf e p = e := by
  unfold errWrite
  rw [h]

theorem emitEntry_of_err (wf : ω → List Char → ω × Option ε) {st : WriteSt ω ε}
    {x : ε} (h : st.ew.err = some x) (ent : Entry) :
    (emitEntry wf st ent).ew = st.ew := by
  by_cases hsec : ent.Section = st.cursec <;>
    by_cases hk : ent.Key = [] <;>
      by_cases hv : ent.Value = [] <;>
        cases hwr : st.wrote <;>
          simp [emitEntry, errWrite_of_err h, hsec, hk, hv, hwr]

theorem foldl_emitEntry_of_err {wf : ω → List Char → ω × Option ε} {x : ε} :
    ∀ (es : List Entry) (st : WriteSt ω ε), st.ew.err = some x →
      (es.foldl (emitEntry wf) st).ew = st.ew := by
  intro es
  induction es with
  | nil => intro st _; rfl
  | cons e t ih =>
    intro st h
    rw [List.foldl_cons]
    have h2 := emitEntry_of_err wf h e
    rw [ih (emitEntry wf st e) (by rw [h2, h]), h2]

theorem errWrite_ok {wf : ω → List Char → ω × Option ε}
    (hwf : ∀ w p, (wf w p).2 = none) {e : ErrWriter ω ε} (he : e.err = none)
    (p : List Char) : (errWrite wf e p).err = none := by
  unfold errWrite
  rw [he]
  exact hwf e.w p

theorem errWrite_err_ok (wf : ω → List Char → ω × Option ε)
    (hwf : ∀ w p, (wf w p).2 = none) (e : ErrWriter ω ε) (p : List Char) :
    (errWrite wf e p).err = e.err := by
  unfold errWrite
  cases he : e.err with
  | some x => exact he
  | none => exact hwf e.w p

theorem emitEntry_ok (wf : ω → List Char → ω × Option ε)
    (hwf : ∀ w p, (wf w p).2 = none) {st : WriteSt ω ε}
    (he : st.ew.err = none) (ent : Entry) : (emitEntry wf st ent).ew.err = none := by
  by_cases hsec : ent.Section = st.cursec <;>
    by_cases hk : ent.Key = [] <;>
      by_cases hv : ent.Value = [] <;>
        cases hwr : st.wrote <;>
          simp [emitEntry, hsec, hk, hv, hwr, errWrite_err_ok wf hwf, he]

theorem foldl_emitEntry_ok {wf : ω → List Char → ω × Option ε}
    (hwf : ∀ w p, (wf w p).2 = none) :
    ∀ (es : List Entry) (st : WriteSt ω ε), st.ew.err = none →
      (es.foldl (emitEntry wf) st).ew.err = none := by
  intro es
  induction es with
  | nil => intro st h; exact h
  | cons e t ih =>
    intro st h
    rw [List.foldl_cons]
    exact ih _ (emitEntry_ok wf hwf h e)

/-! ### Final lines without a terminator -/

theorem splitLinesAux_snoc_nl :
    ∀ (input acc : List Char), input.getLast? ≠ some '\n' → (input ≠ [] ∨ acc ≠ []) →
      splitLinesAux acc (input ++ ['\n']) = splitLinesAux acc input := by
  intro input
  induction input with
  | nil =>
    intro acc _ hor
    have hacc : acc ≠ [] := by
      rcases hor with h | h
      · exact absurd rfl h
      · exact h
    show splitLinesAux acc ('\n' :: []) = splitLinesAux acc []
    rw [splitLinesAux_cons_nl]
    show [dropCR acc.reverse] = if acc = [] then [] else [dropCR acc.reverse]
    rw [if_neg hacc]
  | cons c t ih =>
    intro acc hlast hor
    by_cases hc : c = '\n'
    · subst hc
      have ht : t ≠ [] := by
        intro hx
        subst hx
        exact hlast rfl
      show splitLinesAux acc ('\n' :: (t ++ ['\n'])) = splitLinesAux acc ('\n' :: t)
      rw [splitLinesAux_cons_nl, splitLinesAux_cons_nl]
      have hlt : t.getLast? ≠ some '\n' := by
        have hx : (([] : List Char) ++ '\n' :: t).getLast? = t.getLast? :=
          getLast?_append_cons ht
        rw [List.nil_append] at hx
        rw [← hx]
        exact hlast
      rw [ih [] hlt (Or.inl ht)]
    · show splitLinesAux acc (c :: (t ++ ['\n'])) = splitLinesAux acc (c :: t)
      rw [splitLinesAux_cons_other hc, splitLinesAux_cons_other hc]
      refine ih (c :: acc) ?_ (Or.inr (by simp))
      rcases eq_or_ne t [] with rfl | ht
      · simp
      · have hx : (([] : List Char) ++ c :: t).getLast? = t.getLast? :=
          getLast?_append_cons ht
        rw [List.nil_append] at hx
        rw [← hx]
        exact hlast

theorem splitLines_snoc_nl (input : List Char) (h0 : input ≠ [])
    (h1 : input.getLast? ≠ some '\n') :
    splitLines (input ++ ['\n']) = splitLines input :=
  splitLinesAux_snoc_nl input [] h1 (Or.inl h0)

/-! ### The claims -/

/-- Claim C1, counterexample: the claim "for every entry sequence
producible by the parser, `read(write(entries))` equals the sequence" is
false as stated.  The entry with key `"#a"` and value `"b"` is producible
(the parser emits exactly it for the input `" #a=b"`), but writing it
produces the line `"#a = b"`, which re-reads as a comment, so the
round trip returns zero entries. -/
theorem c1_roundtrip_cex :
    readEntries " #a=b".toList
      = ([⟨[], "#a".toList, "b".toList⟩], .success)
    ∧ readEntries (writeString [⟨[], "#a".toList, "b".toList⟩]) = ([], .success) := by
  constructor
  · decide
  · decide

/-- Claim C1 (amended): for every entry sequence the parser can produce
(keys and values trim-fixed, keys free of `'='`) in which additionally no
key begins with `'#'`, no value ends with `'\\'`, and no entry pairs a
key beginning `'['` with a value ending `']'`, serializing with `Write`
and re-parsing with `Read` yields exactly the original entries, in
order, with success. -/
theorem c1_roundtrip (es : List Entry) (h : ∀ e ∈ es, GoodEntry e) :
    readEntries (writeString es) = (es, .success) := by
  have hr := roundAux es h [] false []
  rw [← writeString_eq_writeAux] at hr
  show runRead collectCb (writeString es) [] = (es, ReadResult.success)
  unfold runRead
  rw [hr]
  simp

theorem c1_roundtrip_witness :
    (∀ e ∈ ([⟨"s".toList, "k".toList, "v\nw".toList⟩,
             ⟨"s".toList, [], "x=y".toList⟩,
             ⟨[], "a".toList, []⟩] : List Entry), GoodEntry e)
    ∧ readEntries (writeString [⟨"s".toList, "k".toList, "v\nw".toList⟩,
             ⟨"s".toList, [], "x=y".toList⟩,
             ⟨[], "a".toList, []⟩])
      = ([⟨"s".toList, "k".toList, "v\nw".toList⟩,
          ⟨"s".toList, [], "x=y".toList⟩,
          ⟨[], "a".toList, []⟩], .success) :=
  ⟨by decide, c1_roundtrip _ (by decide)⟩

/-- Claim C2 (code bug): the claim says a whitespace-only logical line is
discarded silently with no side effects, subsequent lines being processed
as if it were absent.  The blank branch of `Read` does not reset
`linebuf`, so the whitespace of a whitespace-only line is prepended to
the next raw line: on `"  \n#c\n"` the comment line arrives as `"  #c"`,
is not recognized as a comment, and `Read` fails with an invalid-line
error, while without the blank line (or with a fully empty one) the same
input succeeds with zero entries. -/
theorem c2_blank_side_effect :
    readEntries "  \n#c\n".toList = ([], .malformed "  #c".toList)
    ∧ readEntries "#c\n".toList = ([], .success)
    ∧ readEntries "\n#c\n".toList = ([], .success) := by
  refine ⟨by decide, by decide, by decide⟩

/-- Claim C3: a complete logical line (processed from an empty buffer)
that contains `'='`, does not end in `'\\'`, does not begin with `'#'`
and is not bracket-shaped emits exactly one entry whose key is the
whitespace-trimmed text before the first `'='`, whose value is the
whitespace-trimmed text after it (later `'='` kept verbatim), and whose
section is the current section; in particular `"a=b=c\n"` yields key
`"a"`, value `"b=c"`, and `"=\n"` yields an entry with empty key and
value. -/
theorem c3_entry_line :
    (∀ (l : List Char) (rest : List (List Char)) (sec : List Char) (s : List Entry),
      '=' ∈ l →
      l.getLast? ≠ some '\\' →
      l.head? ≠ some '#' →
      ¬(l.head? = some '[' ∧ l.getLast? = some ']') →
      readLoop collectCb (l :: rest) [] sec s
        = readLoop collectCb rest [] sec
            (s ++ [⟨sec, trimSpace (l.takeWhile (fun c => c != '=')),
                   trimSpace ((l.dropWhile (fun c => c != '=')).tail)⟩]))
    ∧ readEntries "a=b=c\n".toList = ([⟨[], "a".toList, "b=c".toList⟩], .success)
    ∧ readEntries "=\n".toList = ([⟨[], [], []⟩], .success) := by
  refine ⟨?_, by decide, by decide⟩
  intro l rest sec s hmem hbs hh hsec
  rw [readLoop_step_entry collectCb l rest [] sec s
    (by rw [List.nil_append]; exact hbs) (by rw [List.nil_append]; exact hh)
    (by rw [List.nil_append]; exact hsec)
    (by rw [List.nil_append]; exact splitFirstEq_mem hmem)]
  rfl

theorem c3_entry_line_witness :
    ('=' ∈ "a=b=c".toList
      ∧ "a=b=c".toList.getLast? ≠ some '\\'
      ∧ "a=b=c".toList.head? ≠ some '#'
      ∧ ¬("a=b=c".toList.head? = some '[' ∧ "a=b=c".toList.getLast? = some ']'))
    ∧ readLoop collectCb ["a=b=c".toList] [] [] []
        = readLoop collectCb [] [] []
            ([] ++ [⟨[], trimSpace ("a=b=c".toList.takeWhile (fun c => c != '=')),
              trimSpace (("a=b=c".toList.dropWhile (fun c => c != '=')).tail)⟩]) :=
  ⟨by decide,
   c3_entry_line.1 "a=b=c".toList [] [] [] (by decide) (by decide) (by decide) (by decide)⟩

/-- Claim C4: a raw line whose last character is a backslash has exactly
that backslash replaced by a literal newline in the accumulating buffer,
and the next raw line is appended directly with no other separator (the
next loop iteration appends it to the buffer unchanged); joining
continues until a raw line not ending in a backslash completes the
logical line, as in the end-to-end example. -/
theorem c4_continuation :
    (∀ {σ ε : Type} (cb : σ → Entry → σ × Option ε) (l : List Char)
      (rest : List (List Char)) (B sec : List Char) (s : σ),
      l.getLast? = some '\\' →
      readLoop cb (l :: rest) B sec s
        = readLoop cb rest ((B ++ l).dropLast ++ ['\n']) sec s)
    ∧ readEntries "foo = bar\\\nmulti line\n".toList
        = ([⟨[], "foo".toList, "bar\nmulti line".toList⟩], .success) := by
  refine ⟨?_, by decide⟩
  intro σ ε cb l rest B sec s h
  apply readLoop_step_cont
  rw [List.getLast?_append, h]
  rfl

theorem c4_continuation_witness :
    "a=b\\".toList.getLast? = some '\\'
    ∧ readLoop collectCb ["a=b\\".toList] [] [] ([] : List Entry)
        = readLoop collectCb [] (([] ++ "a=b\\".toList).dropLast ++ ['\n']) [] [] :=
  ⟨by decide, c4_continuation.1 collectCb "a=b\\".toList [] [] [] [] (by decide)⟩

/-- Claim C5: a complete logical line whose first character is `'['` and
whose last character is `']'` sets the current section to the raw,
untrimmed text strictly between the brackets and emits no entry; no
characters inside the brackets are validated, so `"[a=b]"` is a section
header rather than an entry, and a continued header yields a section
containing an embedded newline. -/
theorem c5_section_line :
    (∀ {σ ε : Type} (cb : σ → Entry → σ × Option ε) (l : List Char)
      (rest : List (List Char)) (sec : List Char) (s : σ),
      l.head? = some '[' → l.getLast? = some ']' →
      readLoop cb (l :: rest) [] sec s
        = readLoop cb rest [] ((l.drop 1).dropLast) s)
    ∧ readEntries "[a=b]\nk=v\n".toList
        = ([⟨"a=b".toList, "k".toList, "v".toList⟩], .success)
    ∧ readEntries "[a\\\nb]\nk=v\n".toList
        = ([⟨"a\nb".toList, "k".toList, "v".toList⟩], .success) := by
  refine ⟨?_, by decide, by decide⟩
  intro σ ε cb l rest sec s hh he
  rw [readLoop_step_section cb l rest [] sec s
    (by rw [List.nil_append]; exact hh) (by rw [List.nil_append]; exact he)]
  rw [List.nil_append]

theorem c5_section_line_witness :
    ("[a=b]".toList.head? = some '[' ∧ "[a=b]".toList.getLast? = some ']')
    ∧ readLoop collectCb ["[a=b]".toList] [] [] ([] : List Entry)
        = readLoop collectCb [] [] (("[a=b]".toList.drop 1).dropLast) [] :=
  ⟨by decide, c5_section_line.1 collectCb "[a=b]".toList [] [] [] (by decide) (by decide)⟩

/-- Claim C6: if the scanner lines split into a prefix that `Read`
processes cleanly (empty buffer afterwards) followed by a line that is
non-blank, complete, not a comment, not bracket-shaped and without
`'='`, then `Read` stops at that line with the malformed-line error
carrying its raw untrimmed text; the callback state is exactly the one
reached before it, so no entry from any later line is emitted, whatever
the rest of the stream contains. -/
theorem c6_malformed :
    (∀ {σ ε : Type} (cb : σ → Entry → σ × Option ε) (input : List Char)
      (xs : List (List Char)) (l : List Char) (rest : List (List Char))
      (sec : List Char) (s s₀ : σ),
      splitLines input = xs ++ l :: rest →
      readLoop cb xs [] [] s₀ = .cont [] sec s →
      trimSpace l ≠ [] →
      l.getLast? ≠ some '\\' →
      l.head? ≠ some '#' →
      ¬(l.head? = some '[' ∧ l.getLast? = some ']') →
      '=' ∉ l →
      runRead cb input s₀ = (s, .malformed l))
    ∧ readEntries "k=v\nnot valid at all\nx=y\n".toList
        = ([⟨[], "k".toList, "v".toList⟩], .malformed "not valid at all".toList) := by
  refine ⟨?_, by decide⟩
  intro σ ε cb input xs l rest sec s s₀ hsplit hpre hb hbs hh hsec hnoeq
  unfold runRead
  rw [hsplit, readLoop_append cb xs (l :: rest) [] [] s₀, hpre]
  show (match readLoop cb (l :: rest) [] sec s with
        | LoopOut.cont _ _ t => (t, ReadResult.success)
        | LoopOut.stop t r => (t, r)) = (s, ReadResult.malformed l)
  rw [readLoop_step_malformed cb l rest [] sec s
    (by rw [List.nil_append]; exact hb)
    (by rw [List.nil_append]; intro hx; rw [hx] at hb; exact hb rfl)
    (by rw [List.nil_append]; exact hbs) (by rw [List.nil_append]; exact hh)
    (by rw [List.nil_append]; exact hsec)
    (by rw [List.nil_append]; exact splitFirstEq_no_eq hnoeq)]
  simp

theorem c6_malformed_witness :
    (splitLines "k=v\nnot valid at all\nx=y\n".toList
        = ["k=v".toList] ++ "not valid at all".toList :: ["x=y".toList]
      ∧ readLoop collectCb ["k=v".toList] [] [] []
          = .cont [] [] [⟨[], "k".toList, "v".toList⟩]
      ∧ trimSpace "not valid at all".toList ≠ []
      ∧ "not valid at all".toList.getLast? ≠ some '\\'
      ∧ "not valid at all".toList.head? ≠ some '#'
      ∧ ¬("not valid at all".toList.head? = some '['
          ∧ "not valid at all".toList.getLast? = some ']')
      ∧ '=' ∉ "not valid at all".toList)
    ∧ runRead collectCb "k=v\nnot valid at all\nx=y\n".toList []
        = ([⟨[], "k".toList, "v".toList⟩], .malformed "not valid at all".toList) :=
  ⟨by decide,
   c6_malformed.1 collectCb "k=v\nnot valid at all\nx=y\n".toList
     ["k=v".toList] "not valid at all".toList ["x=y".toList]
     [] [⟨[], "k".toList, "v".toList⟩] []
     (by decide) (by decide) (by decide) (by decide) (by decide) (by decide) (by decide)⟩

/-- Claim C7: if the scanner lines split into a cleanly processed prefix
followed by an entry line on which the callback reports a failure, then
`Read` returns exactly that failure; the callback state is the one the
failing call produced (entries already delivered stay delivered, no
rollback), and the rest of the stream — universally quantified here — is
never processed.  Success is returned only when no callback invocation
fails and no line is malformed, since any failure short-circuits the
run this way. -/
theorem c7_cb_error :
    ∀ {σ ε : Type} (cb : σ → Entry → σ × Option ε) (input : List Char)
      (xs : List (List Char)) (l : List Char) (rest : List (List Char))
      (sec : List Char) (s s' s₀ : σ) (k v : List Char) (e : ε),
      splitLines input = xs ++ l :: rest →
      readLoop cb xs [] [] s₀ = .cont [] sec s →
      l.getLast? ≠ some '\\' →
      l.head? ≠ some '#' →
      ¬(l.head? = some '[' ∧ l.getLast? = some ']') →
      splitFirstEq l = some (k, v) →
      cb s ⟨sec, trimSpace k, trimSpace v⟩ = (s', some e) →
      runRead cb input s₀ = (s', .cbError e) := by
  intro σ ε cb input xs l rest sec s s' s₀ k v e hsplit hpre hbs hh hsec hsp hcb
  unfold runRead
  rw [hsplit, readLoop_append cb xs (l :: rest) [] [] s₀, hpre]
  show (match readLoop cb (l :: rest) [] sec s with
        | LoopOut.cont _ _ t => (t, ReadResult.success)
        | LoopOut.stop t r => (t, r)) = (s', ReadResult.cbError e)
  rw [readLoop_step_entry cb l rest [] sec s
    (by rw [List.nil_append]; exact hbs) (by rw [List.nil_append]; exact hh)
    (by rw [List.nil_append]; exact hsec) (by rw [List.nil_append]; exact hsp)]
  rw [hcb]

theorem c7_cb_error_witness :
    (splitLines "a=b\nc=d\nx=y\n".toList
        = ["a=b".toList] ++ "c=d".toList :: ["x=y".toList]
      ∧ readLoop failC ["a=b".toList] [] [] []
          = .cont [] [] [⟨[], "a".toList, "b".toList⟩]
      ∧ splitFirstEq "c=d".toList = some (['c'], ['d'])
      ∧ failC [⟨[], "a".toList, "b".toList⟩] ⟨[], trimSpace ['c'], trimSpace ['d']⟩
          = ([⟨[], "a".toList, "b".toList⟩, ⟨[], "c".toList, "d".toList⟩], some ()))
    ∧ runRead failC "a=b\nc=d\nx=y\n".toList []
        = ([⟨[], "a".toList, "b".toList⟩, ⟨[], "c".toList, "d".toList⟩], .cbError ()) :=
  ⟨by decide,
   c7_cb_error failC "a=b\nc=d\nx=y\n".toList
     ["a=b".toList] "c=d".toList ["x=y".toList]
     [] [⟨[], "a".toList, "b".toList⟩]
     [⟨[], "a".toList, "b".toList⟩, ⟨[], "c".toList, "d".toList⟩] []
     ['c'] ['d'] ()
     (by decide) (by decide) (by decide) (by decide) (by decide) (by decide) (by decide)⟩

/-- Claim C8: once an underlying write has failed, every further write
performed by `Write` is suppressed — the sink state is never touched
again and the recorded error is preserved unchanged, so `Write` returns
the first failure at the end; and when the sink never fails, `Write`
returns success. -/
theorem c8_write_failure {ω ε : Type} (wf : ω → List Char → ω × Option ε)
    (es : List Entry) :
    (∀ (st : WriteSt ω ε) (x : ε), st.ew.err = some x →
      (es.foldl (emitEntry wf) st).ew = st.ew)
    ∧ (∀ (w0 : ω), (∀ w p, (wf w p).2 = none) → writeErr wf es w0 = none) := by
  constructor
  · intro st x h
    exact foldl_emitEntry_of_err es st h
  · intro w0 hwf
    unfold writeErr WriteGo
    exact foldl_emitEntry_ok hwf es _ rfl

theorem c8_write_failure_witness :
    ((⟨⟨"x".toList, some ()⟩, [], true⟩ : WriteSt (List Char) Unit).ew.err = some ()
      ∧ (([⟨[], "a".toList, "b".toList⟩] : List Entry).foldl (emitEntry accumW)
            ⟨⟨"x".toList, some ()⟩, [], true⟩).ew
          = (⟨⟨"x".toList, some ()⟩, [], true⟩ : WriteSt (List Char) Unit).ew)
    ∧ writeErr accumW [⟨[], "a".toList, "b".toList⟩] [] = none :=
  ⟨⟨rfl, (c8_write_failure accumW [⟨[], "a".toList, "b".toList⟩]).1 _ () rfl⟩,
   (c8_write_failure accumW [⟨[], "a".toList, "b".toList⟩]).2 [] (fun _ _ => rfl)⟩

/-- Claim C9: a completely empty input yields zero callback invocations
and success; and an input whose cleanly processed lines end with a final
raw line carrying a trailing backslash ends the read mid-accumulation:
the dangling partial line is never classified — no entry, no error — and
`Read` returns success with exactly the callback state of the processed
prefix. -/
theorem c9_dangling :
    (∀ {σ ε : Type} (cb : σ → Entry → σ × Option ε) (s₀ : σ),
      runRead cb [] s₀ = (s₀, .success))
    ∧ (∀ {σ ε : Type} (cb : σ → Entry → σ × Option ε) (input : List Char)
        (xs : List (List Char)) (l : List Char) (B sec : List Char) (s s₀ : σ),
        splitLines input = xs ++ [l] →
        l.getLast? = some '\\' →
        readLoop cb xs [] [] s₀ = .cont B sec s →
        runRead cb input s₀ = (s, .success)) := by
  constructor
  · intro σ ε cb s₀
    rfl
  · intro σ ε cb input xs l B sec s s₀ hsplit hl hpre
    unfold runRead
    rw [hsplit, readLoop_append cb xs [l] [] [] s₀, hpre]
    show (match readLoop cb [l] B sec s with
          | LoopOut.cont _ _ t => (t, ReadResult.success)
          | LoopOut.stop t r => (t, r)) = (s, ReadResult.success)
    rw [readLoop_step_cont cb l [] B sec s (by rw [List.getLast?_append, hl]; rfl)]
    rfl

theorem c9_dangling_witness :
    (splitLines "a=b\\".toList = [] ++ ["a=b\\".toList]
      ∧ "a=b\\".toList.getLast? = some '\\'
      ∧ readLoop collectCb [] [] [] ([] : List Entry) = .cont [] [] [])
    ∧ runRead collectCb "a=b\\".toList [] = ([], .success) :=
  ⟨by decide,
   c9_dangling.2 collectCb "a=b\\".toList [] "a=b\\".toList [] [] [] []
     (by decide) (by decide) (by decide)⟩

/-- Claim C10: an input whose final raw line lacks a trailing terminator
is read exactly as if the terminator were present (the scanner returns
the leftover bytes as a final line), so appending `'\n'` to such an
input never changes the result of `Read`; in particular the single
character `'='` with no newline yields one entry with empty section, key
and value, and success. -/
theorem c10_no_terminator :
    (∀ {σ ε : Type} (cb : σ → Entry → σ × Option ε) (input : List Char) (s₀ : σ),
      input ≠ [] → input.getLast? ≠ some '\n' →
      runRead cb (input ++ ['\n']) s₀ = runRead cb input s₀)
    ∧ readEntries "=".toList = ([⟨[], [], []⟩], .success) := by
  refine ⟨?_, by decide⟩
  intro σ ε cb input s₀ h0 h1
  unfold runRead
  rw [splitLines_snoc_nl input h0 h1]

theorem c10_no_terminator_witness :
    ("=".toList ≠ [] ∧ "=".toList.getLast? ≠ some '\n')
    ∧ runRead collectCb ("=".toList ++ ['\n']) []
        = runRead collectCb "=".toList [] :=
  ⟨by decide, c10_no_terminator.1 collectCb "=".toList [] (by decide) (by decide)⟩

end Ini
